import Mathlib

/-!
Verification development for the capillary-chatbot retrieval core.

The Python sources embedded here are:
* `src/scripts/chunking.py` — `chunk_text` (sentence splitting + sliding window);
* `src/scripts/dataframe_utils.py` — `create_dataframe` (chunk table + id mapping);
* `src/scripts/embedding_index.py` — `build_faiss_index` (normalization + index build);
* `src/app.py` — module-level artifact loading and `retrieve_docs`.

Real-valued embedding vectors are idealized as lists of rationals; the FAISS
`IndexFlatIP` nearest-neighbour search, an external library call, is modelled
from the spec's interface description (§3 SimilarityIndex): positions ranked by
descending inner product with ties broken by ascending insertion position,
padded with the sentinel `-1` when `k` exceeds the index count.
-/

namespace Capillary

/-- Python `\s` on the ASCII range, as used by `re.split(r'(?<=[.!?])\s+', text)`. -/
def pySpace (c : Char) : Bool :=
  c = ' ' || c = '\t' || c = '\n' || c = '\r' || c = '\x0b' || c = '\x0c'

/-- Sentence-terminal punctuation of the chunker's regex: `.`, `!`, `?`. -/
def isTerm (c : Char) : Bool :=
  c = '.' || c = '!' || c = '?'

/-- Does the reversed accumulator end (in text order) with a terminal mark?
This realizes the regex lookbehind `(?<=[.!?])`. -/
def isTermHead : List Char → Bool
  | t :: _ => isTerm t
  | [] => false

/-- Character-level embedding of `re.split(r'(?<=[.!?])\s+', text)`:
`acc` is the current piece reversed; `skipping = true` while consuming the
greedy `\s+` whitespace run of a delimiter just matched. -/
def splitAux (acc : List Char) (skipping : Bool) : List Char → List (List Char)
  | [] => [acc.reverse]
  | c :: rest =>
    if skipping && pySpace c then
      splitAux acc true rest
    else if !skipping && pySpace c && isTermHead acc then
      acc.reverse :: splitAux [] true rest
    else
      splitAux (c :: acc) false rest

/-- `sentences = re.split(r'(?<=[.!?])\s+', text)` from `chunk_text`. -/
def splitSentences (text : String) : List String :=
  (splitAux [] false text.data).map (fun p => ⟨p⟩)

/-- Python `" ".join(parts)`. -/
def joinSpace : List String → String
  | [] => ""
  | [s] => s
  | s :: rest => s ++ " " ++ joinSpace rest

/-- Python `str.strip()`: drop leading and trailing whitespace. -/
def pyStrip (s : String) : String :=
  ⟨((s.data.dropWhile pySpace).reverse.dropWhile pySpace).reverse⟩

/-- Clamp a Python slice endpoint to a valid offset of a list of length `len`. -/
def pyIdx (len : Nat) (i : Int) : Nat :=
  if i < 0 then ((len : Int) + i).toNat else min i.toNat len

/-- Python `l[s:e]`. -/
def pySlice {α : Type} (l : List α) (s e : Int) : List α :=
  (l.drop (pyIdx l.length s)).take (pyIdx l.length e - pyIdx l.length s)

/-- The `while start < len(sentences)` loop of `chunk_text`, fuelled so that the
non-terminating configurations of the source are observable as `none`.
`start` is an `Int` because Python lets `start += chunk_size - overlap` go
negative when `overlap > chunk_size`. -/
def chunkLoop (cs ov : Nat) (sents : List String) : Nat → Int → List String → Option (List String)
  | 0, _, _ => none
  | fuel + 1, start, acc =>
    if start < (sents.length : Int) then
      let ct := pyStrip (joinSpace (pySlice sents start (start + (cs : Int))))
      chunkLoop cs ov sents fuel (start + (cs : Int) - (ov : Int))
        (if ct = "" then acc else acc ++ [ct])
    else
      some acc

/-- `chunk_text(text, chunk_size, overlap)` from `src/scripts/chunking.py`.
The fuel `sentences.length + 1` is proved sufficient whenever
`overlap < chunk_size`; `none` marks the configurations on which the source
loops forever. -/
def chunk_text (text : String) (chunk_size overlap : Nat) : Option (List String) :=
  let sentences := splitSentences text
  chunkLoop chunk_size overlap sentences (sentences.length + 1) 0 []

/-- Number of window start positions `0, step, 2·step, …` that are `< len`. -/
def numWindows (len step : Nat) : Nat := (len + step - 1) / step

/-- The chunking policy as spec §4.1 words it: a sliding window over the
sentence sequence starting at 0 and advancing by `chunk_size - overlap`
sentences per step while the start is in range; each chunk is the trimmed
space-join of `chunk_size` consecutive sentences (the final partial window
included); chunks that are blank after trimming are dropped. -/
def specWindows (cs ov : Nat) (sents : List String) : List String :=
  ((List.range' 0 (numWindows sents.length (cs - ov)) (cs - ov)).map
    (fun s => pyStrip (joinSpace ((sents.drop s).take cs)))).filter
    (fun c => decide (c ≠ ""))

/-! ## Retrieval core: embedding matrix, index, id mapping, retrieval -/

/-- Squared L2 norm of a vector (float arithmetic idealized over `ℚ`). -/
def normSq (v : List ℚ) : ℚ := (v.map (fun x => x * x)).sum

/-- IEEE division as the code meets it: a finite rational result when the
divisor is nonzero, `none` (NaN / ±Inf) when dividing by zero. -/
def fdiv (x y : ℚ) : Option ℚ :=
  if y = 0 then none else some (x / y)

/-- One row of `embeddings / np.linalg.norm(embeddings, axis=1, keepdims=True)`
in `build_faiss_index`: every component divided by the row's L2 norm `n`
(supplied separately since the norm is irrational in general; theorems relate
it to the row by `n ^ 2 = normSq r`). There is no zero-norm check in the code. -/
def normalizeRow (r : List ℚ) (n : ℚ) : List (Option ℚ) :=
  r.map (fun x => fdiv x n)

/-- The whole normalization step of `build_faiss_index`, rows paired with their
norms. -/
def normalizeRows (rows : List (List ℚ)) (norms : List ℚ) : List (List (Option ℚ)) :=
  (rows.zip norms).map (fun rn => normalizeRow rn.1 rn.2)

/-- A FAISS `IndexFlatIP`: the list of inserted vectors, position `i` holding
the `i`-th vector added. -/
structure FaissIndexIP where
  vecs : List (List ℚ)
deriving DecidableEq

/-- `faiss.IndexFlatIP(dimension)`: a fresh, empty index. -/
def FaissIndexIP.empty : FaissIndexIP := ⟨[]⟩

/-- `index.add(v)`: append-only insertion. -/
def FaissIndexIP.add (idx : FaissIndexIP) (v : List ℚ) : FaissIndexIP :=
  ⟨idx.vecs ++ [v]⟩

/-- `index.ntotal`. -/
def FaissIndexIP.count (idx : FaissIndexIP) : Nat := idx.vecs.length

/-- `index.add(embeddings)` on a fresh index: insert every row in input order.
From `src/scripts/embedding_index.py` (`build_faiss_index`), with the rows
being the already-normalized embedding matrix. -/
def build_faiss_index (rows : List (List ℚ)) : FaissIndexIP :=
  rows.foldl FaissIndexIP.add FaissIndexIP.empty

/-- Inner product of two vectors. -/
def ip (u v : List ℚ) : ℚ := (List.zipWith (fun a b => a * b) u v).sum

/-- The search-ranking preorder on index positions: higher inner product with
the query first, ties broken by ascending insertion position (spec §3). -/
def rankLe (rows : List (List ℚ)) (q : List ℚ) (a b : Nat) : Prop :=
  ip (rows.getD a []) q > ip (rows.getD b []) q ∨
    (ip (rows.getD a []) q = ip (rows.getD b []) q ∧ a ≤ b)

/-- Strict version of `rankLe`: strictly better score, or equal score and
strictly smaller insertion position. -/
def rankLt (rows : List (List ℚ)) (q : List ℚ) (a b : Nat) : Prop :=
  ip (rows.getD a []) q > ip (rows.getD b []) q ∨
    (ip (rows.getD a []) q = ip (rows.getD b []) q ∧ a < b)

instance rankLeDec (rows : List (List ℚ)) (q : List ℚ) : DecidableRel (rankLe rows q) :=
  fun a b =>
    inferInstanceAs (Decidable (ip (rows.getD a []) q > ip (rows.getD b []) q ∨
      (ip (rows.getD a []) q = ip (rows.getD b []) q ∧ a ≤ b)))

instance rankLeTotal (rows : List (List ℚ)) (q : List ℚ) : IsTotal Nat (rankLe rows q) where
  total a b := by
    rcases lt_trichotomy (ip (rows.getD a []) q) (ip (rows.getD b []) q) with h | h | h
    · exact Or.inr (Or.inl h)
    · rcases Nat.le_total a b with hab | hab
      · exact Or.inl (Or.inr ⟨h, hab⟩)
      · exact Or.inr (Or.inr ⟨h.symm, hab⟩)
    · exact Or.inl (Or.inl h)

instance rankLeTrans (rows : List (List ℚ)) (q : List ℚ) : IsTrans Nat (rankLe rows q) where
  trans a b c hab hbc := by
    rcases hab with hab | ⟨hab, hab'⟩ <;> rcases hbc with hbc | ⟨hbc, hbc'⟩
    · exact Or.inl (hbc.trans hab)
    · exact Or.inl (hbc ▸ hab)
    · exact Or.inl (hab ▸ hbc)
    · exact Or.inr ⟨hab.trans hbc, hab'.trans hbc'⟩

/-- Modelled from the spec: `index.search(query_vec, top_k)` of the external
FAISS library, per §3's SimilarityIndex contract — the `top_k` positions with
highest inner product against the query, in descending-similarity order with
ties broken by ascending insertion position, padded with the sentinel label
`-1` when the index holds fewer than `top_k` vectors. -/
def faissSearch (idx : FaissIndexIP) (q : List ℚ) (k : Nat) : List Int :=
  let ranked := (List.insertionSort (rankLe idx.vecs q) (List.range idx.count)).take k
  ranked.map Int.ofNat ++ List.replicate (k - ranked.length) (-1)

/-- `id_mapping = {i: i for i in range(len(chunks))}` from `create_dataframe`
in `src/scripts/dataframe_utils.py`, after `json.dump`/`json.load` round-trip
which stringifies the integer keys. -/
def id_mappingOf (chunks : List String) : List (String × Nat) :=
  (List.range chunks.length).map (fun i => (toString i, i))

/-- The list-comprehension core of `retrieve_docs` in `src/app.py`:
`[df.loc[int(id_mapping.get(str(idx)))]["text"] for idx in I[0] if str(idx) in id_mapping]`.
Positions whose stringified value is absent from the mapping are skipped; a
mapped id absent from the chunk table raises `KeyError`, modelled as `none`. -/
def retrieveList (idx : FaissIndexIP) (mapping : List (String × Nat)) (df : List String)
    (q : List ℚ) (k : Nat) : Option (List String) :=
  ((faissSearch idx q k).filter
      (fun p => (mapping.lookup (toString p)).isSome)).mapM
    (fun p => (mapping.lookup (toString p)).bind (fun id => df[id]?))

/-- `retrieve_docs` returns `"\n\n".join(results)`; `q` stands for the already
normalized query vector produced by the external embedding model. -/
def retrieve_docs (idx : FaissIndexIP) (mapping : List (String × Nat)) (df : List String)
    (q : List ℚ) (k : Nat) : Option String :=
  (retrieveList idx mapping df q k).map (fun l => String.intercalate "\n\n" l)

/-- The artifacts `app.py` binds at module level. -/
structure RagState where
  index : FaissIndexIP
  df : List String
  id_mapping : List (String × Nat)
deriving DecidableEq

/-- Module-level load in `src/app.py` (lines 26–40): the FAISS index, the chunk
table and the id mapping are each read and bound as-is; no cross-artifact
integrity validation of any kind is performed. -/
def loadArtifacts (index : FaissIndexIP) (df : List String)
    (mapping : List (String × Nat)) : Except String RagState :=
  .ok ⟨index, df, mapping⟩

/-- Sanity: the sentence split of the spec's concrete scenario text. -/
theorem splitSentences_sample :
    splitSentences "A. B. C. D. E." = ["A.", "B.", "C.", "D.", "E."] := by decide

/-- Sanity: the spec-worded windowing agrees on the concrete scenario text. -/
theorem specWindows_sample :
    specWindows 2 1 (splitSentences "A. B. C. D. E.") =
      ["A. B.", "B. C.", "C. D.", "D. E.", "E."] := by decide

/-- Sanity: `top_k` above the index count returns all available results. -/
theorem retrieveList_overlong_sample :
    retrieveList ⟨[[1]]⟩ [("0", 0)] ["t"] [1] 3 = some ["t"] := by decide

/-- Sanity: retrieval on an empty index joins to the empty string. -/
theorem retrieve_docs_empty_sample :
    retrieve_docs ⟨[]⟩ [] [] [1] 5 = some "" := by decide

/-! ## Helper lemmas -/

theorem splitAux_ne_nil (l : List Char) : ∀ (acc : List Char) (sk : Bool),
    splitAux acc sk l ≠ [] := by
  induction l with
  | nil => intro acc sk; simp [splitAux]
  | cons c rest ih =>
    intro acc sk
    simp only [splitAux]
    split
    · exact ih acc true
    · split
      · simp
      · exact ih (c :: acc) false

theorem splitSentences_length_pos (text : String) : 0 < (splitSentences text).length := by
  unfold splitSentences
  rw [List.length_map]
  exact List.length_pos.mpr (splitAux_ne_nil _ _ _)

/-- When the advance step `chunk_size - overlap` is non-positive, the loop of
`chunk_text` never leaves its first position and no amount of fuel makes it
return. -/
theorem chunkLoop_none_of_nonpos (cs ov : Nat) (sents : List String) (hov : cs ≤ ov)
    (hlen : 0 < sents.length) :
    ∀ (fuel : Nat) (start : Int) (acc : List String), start ≤ 0 →
      chunkLoop cs ov sents fuel start acc = none := by
  intro fuel
  induction fuel with
  | zero => intro start acc _; rfl
  | succ f ih =>
    intro start acc h
    have hlt : start < (sents.length : Int) :=
      lt_of_le_of_lt h (by exact_mod_cast hlen)
    simp only [chunkLoop, if_pos hlt]
    apply ih
    omega

theorem normSq_map_div (r : List ℚ) (n : ℚ) :
    normSq (r.map (fun x => x / n)) = normSq r / n ^ 2 := by
  induction r with
  | nil => simp [normSq]
  | cons x xs ih =>
    simp only [normSq, List.map_cons, List.sum_cons] at ih ⊢
    rw [ih, add_div, div_mul_div_comm, sq]

theorem dropWhile_eq_self_of_head {α : Type} (p : α → Bool) (l : List α)
    (h : ∀ x ∈ l.head?, p x = false) : l.dropWhile p = l := by
  cases l with
  | nil => rfl
  | cons a t => simp [List.dropWhile_cons, h a rfl]

theorem dropWhile_head_false {α : Type} {p : α → Bool} {l : List α} :
    ∀ x ∈ (l.dropWhile p).head?, p x = false := by
  intro x hx
  have h := List.head?_dropWhile_not p l
  cases he : (l.dropWhile p).head? with
  | none => rw [he] at hx; exact absurd hx (by simp)
  | some y =>
    rw [he] at hx h
    simp only [Option.mem_def, Option.some.injEq] at hx
    subst hx
    exact h

/-- `str.strip()` is idempotent. -/
theorem pyStrip_idempotent (s : String) : pyStrip (pyStrip s) = pyStrip s := by
  show (⟨(((((s.data.dropWhile pySpace).reverse.dropWhile pySpace).reverse).dropWhile
    pySpace).reverse.dropWhile pySpace).reverse⟩ : String) =
    ⟨((s.data.dropWhile pySpace).reverse.dropWhile pySpace).reverse⟩
  set d := s.data.dropWhile pySpace with hd
  set e := d.reverse.dropWhile pySpace with he
  have h1 : e.reverse.dropWhile pySpace = e.reverse := by
    apply dropWhile_eq_self_of_head
    intro x hx
    rw [List.head?_reverse] at hx
    rcases eq_or_ne e [] with hnil | hnil
    · rw [hnil] at hx; simp at hx
    · obtain ⟨t, ht⟩ := List.dropWhile_suffix (l := d.reverse) pySpace
      rw [← he] at ht
      have hlast : e.getLast? = d.head? := by
        rw [← List.getLast?_reverse d, ← ht, List.getLast?_append_of_ne_nil _ hnil]
      rw [hlast] at hx
      exact dropWhile_head_false x hx
  have h2 : e.dropWhile pySpace = e := by
    conv_lhs => rw [he]
    rw [← he]
    exact dropWhile_eq_self_of_head _ _ (fun x hx => dropWhile_head_false x (he ▸ hx))
  rw [h1, List.reverse_reverse, h2]

/-- Loop invariant for `chunk_text`: every emitted chunk is non-empty and
fixed by `strip`. -/
theorem chunkLoop_trimmed (cs ov : Nat) (sents : List String) :
    ∀ (fuel : Nat) (start : Int) (acc l : List String),
      (∀ c ∈ acc, c ≠ "" ∧ pyStrip c = c) →
      chunkLoop cs ov sents fuel start acc = some l →
      ∀ c ∈ l, c ≠ "" ∧ pyStrip c = c := by
  intro fuel
  induction fuel with
  | zero => intro start acc l _ h; exact absurd h (by simp [chunkLoop])
  | succ f ih =>
    intro start acc l hacc h
    rw [chunkLoop] at h
    split at h
    · refine ih _ _ _ ?_ h
      intro c hc
      split at hc
      · exact hacc c hc
      · rcases List.mem_append.mp hc with h' | h'
        · exact hacc c h'
        · rcases List.mem_singleton.mp h' with rfl
          exact ⟨by assumption, pyStrip_idempotent _⟩
    · cases h
      exact hacc

/-- A Python slice `l[s : s + cs]` with natural bounds is drop-then-take. -/
theorem pySlice_natCast {α : Type} (l : List α) (s cs : Nat) :
    pySlice l (s : Int) ((s : Int) + (cs : Int)) = (l.drop s).take cs := by
  unfold pySlice pyIdx
  have h1 : ¬ ((s : Int) < 0) := by omega
  have h2 : ¬ ((s : Int) + (cs : Int) < 0) := by omega
  rw [if_neg h1, if_neg h2]
  have h3 : (s : Int).toNat = s := Int.toNat_natCast s
  have h4 : ((s : Int) + (cs : Int)).toNat = s + cs := by omega
  rw [h3, h4]
  rcases Nat.le_total s l.length with hs | hs
  · rw [Nat.min_eq_left hs]
    rcases Nat.le_total (s + cs) l.length with hsc | hsc
    · rw [Nat.min_eq_left hsc, Nat.add_sub_cancel_left]
    · rw [Nat.min_eq_right hsc]
      have hlen : (l.drop s).length = l.length - s := List.length_drop s l
      rw [List.take_of_length_le (by omega), List.take_of_length_le (by omega)]
  · rw [Nat.min_eq_right hs, List.drop_eq_nil_of_le hs,
      List.drop_eq_nil_of_le (le_refl l.length), List.take_nil, List.take_nil]

theorem numWindows_zero {step : Nat} (hstep : 0 < step) : numWindows 0 step = 0 := by
  unfold numWindows
  exact Nat.div_eq_of_lt (by omega)

theorem numWindows_succ {m step : Nat} (hm : 0 < m) (hstep : 0 < step) :
    numWindows m step = numWindows (m - step) step + 1 := by
  unfold numWindows
  rcases Nat.le_total step m with h | h
  · have : m + step - 1 = (m - step + step - 1) + step := by omega
    rw [this, Nat.add_div_right _ hstep]
  · have h0 : m - step = 0 := by omega
    have hz : (0 + step - 1) / step = 0 := Nat.div_eq_of_lt (by omega)
    rw [h0, hz]
    exact Nat.div_eq_of_lt_le (by omega) (by omega)

/-- The loop of `chunk_text`, run from a window start position with enough
fuel, produces exactly the windows of the spec's sliding-window description
from that position on. -/
theorem chunkLoop_eq_windows (cs ov : Nat) (hov : ov < cs) (sents : List String) :
    ∀ (fuel start : Nat) (acc : List String), 0 < fuel → sents.length < start + fuel →
      chunkLoop cs ov sents fuel (start : Int) acc =
        some (acc ++
          ((List.range' start (numWindows (sents.length - start) (cs - ov)) (cs - ov)).map
            (fun s => pyStrip (joinSpace ((sents.drop s).take cs)))).filter
            (fun c => decide (c ≠ ""))) := by
  intro fuel
  induction fuel with
  | zero => intro start acc h0 _; omega
  | succ f ih =>
    intro start acc _ hfuel
    have hstep : 0 < cs - ov := by omega
    by_cases hstart : start < sents.length
    · have hlt : (start : Int) < (sents.length : Int) := by exact_mod_cast hstart
      rw [chunkLoop, if_pos hlt]
      have hslice : pySlice sents (start : Int) ((start : Int) + (cs : Int)) =
          (sents.drop start).take cs := pySlice_natCast sents start cs
      have hint : (start : Int) + (cs : Int) - (ov : Int) = ((start + (cs - ov) : Nat) : Int) := by
        omega
      have hf : 0 < f := by omega
      have hfuel' : sents.length < (start + (cs - ov)) + f := by omega
      rw [hslice, hint, ih (start + (cs - ov)) _ hf hfuel']
      have hn : numWindows (sents.length - start) (cs - ov) =
          numWindows (sents.length - (start + (cs - ov))) (cs - ov) + 1 := by
        rw [numWindows_succ (by omega) hstep]
        congr 2
        omega
      rw [hn, List.range'_succ, List.map_cons]
      by_cases hct : pyStrip (joinSpace ((sents.drop start).take cs)) = ""
      · rw [if_pos hct, List.filter_cons_of_neg (by simp [hct])]
      · rw [if_neg hct, List.filter_cons_of_pos (by simp [hct]), List.append_cons,
          List.append_assoc]
        simp
    · have hge : ¬ ((start : Int) < (sents.length : Int)) := by exact_mod_cast hstart
      rw [chunkLoop, if_neg hge]
      have h0 : sents.length - start = 0 := by omega
      rw [h0, numWindows_zero hstep, List.range'_zero, List.map_nil, List.filter_nil,
        List.append_nil]

/-- A string strips to empty exactly when all its characters are whitespace. -/
theorem pyStrip_eq_empty_iff (s : String) :
    pyStrip s = "" ↔ ∀ c ∈ s.data, pySpace c = true := by
  unfold pyStrip
  rw [String.ext_iff]
  show ((s.data.dropWhile pySpace).reverse.dropWhile pySpace).reverse = [] ↔ _
  rw [List.reverse_eq_nil_iff, List.dropWhile_eq_nil_iff]
  constructor
  · intro h c hc
    have hsplit : c ∈ s.data.takeWhile pySpace ++ s.data.dropWhile pySpace := by
      rw [List.takeWhile_append_dropWhile]; exact hc
    rcases List.mem_append.mp hsplit with h' | h'
    · exact List.mem_takeWhile_imp h'
    · exact h c (List.mem_reverse.mpr h')
  · intro h c hc
    exact h c (List.dropWhile_subset pySpace (List.mem_reverse.mp hc))

/-- A character of any part occurs in the characters of `" ".join(parts)`. -/
theorem mem_joinSpace_data {parts : List String} {s : String} {c : Char}
    (hs : s ∈ parts) (hc : c ∈ s.data) : c ∈ (joinSpace parts).data := by
  induction parts with
  | nil => simp at hs
  | cons a rest ih =>
    cases rest with
    | nil =>
      rcases List.mem_singleton.mp hs with rfl
      exact hc
    | cons b rest' =>
      show c ∈ (a ++ " " ++ joinSpace (b :: rest')).data
      rw [String.data_append, String.data_append]
      rcases List.mem_cons.mp hs with rfl | h'
      · exact List.mem_append.mpr (Or.inl (List.mem_append.mpr (Or.inl hc)))
      · exact List.mem_append.mpr (Or.inr (ih h'))

/-- Every non-whitespace character of the input (or of the pending
accumulator) survives into some piece of the sentence split. -/
theorem splitAux_covers (l : List Char) :
    ∀ (acc : List Char) (sk : Bool) (c : Char), pySpace c = false →
      (c ∈ l ∨ c ∈ acc) → ∃ p ∈ splitAux acc sk l, c ∈ p := by
  induction l with
  | nil =>
    intro acc sk c _ hmem
    rcases hmem with h | h
    · simp at h
    · exact ⟨acc.reverse, by simp [splitAux], List.mem_reverse.mpr h⟩
  | cons x rest ih =>
    intro acc sk c hc hmem
    simp only [splitAux]
    split
    · rename_i hcond
      rw [Bool.and_eq_true] at hcond
      apply ih acc true c hc
      rcases hmem with h | h
      · rcases List.mem_cons.mp h with rfl | h'
        · rw [hcond.2] at hc; cases hc
        · exact Or.inl h'
      · exact Or.inr h
    · split
      · rename_i hcond2
        rw [Bool.and_eq_true, Bool.and_eq_true] at hcond2
        rcases hmem with h | h
        · rcases List.mem_cons.mp h with rfl | h'
          · rw [hcond2.1.2] at hc; cases hc
          · obtain ⟨p, hp, hcp⟩ := ih [] true c hc (Or.inl h')
            exact ⟨p, List.mem_cons_of_mem _ hp, hcp⟩
        · exact ⟨acc.reverse, List.mem_cons_self _ _, List.mem_reverse.mpr h⟩
      · apply ih (x :: acc) false c hc
        rcases hmem with h | h
        · rcases List.mem_cons.mp h with rfl | h'
          · exact Or.inr (List.mem_cons_self _ _)
          · exact Or.inl h'
        · exact Or.inr (List.mem_cons_of_mem _ h)

theorem lt_numWindows_iff {len step j : Nat} (hstep : 0 < step) :
    j < numWindows len step ↔ j * step < len := by
  unfold numWindows
  have hsucc : (j + 1) * step = j * step + step := Nat.succ_mul j step
  constructor
  · intro h
    have h' : (j + 1) * step ≤ len + step - 1 := (Nat.le_div_iff_mul_le hstep).mp h
    omega
  · intro h
    have : (j + 1) * step ≤ len + step - 1 := by omega
    exact (Nat.le_div_iff_mul_le hstep).mpr this

theorem getElem_mem_take_drop {α : Type} (l : List α) (s cs i : Nat)
    (hi : i < l.length) (h1 : s ≤ i) (h2 : i < s + cs) :
    l[i] ∈ (l.drop s).take cs := by
  have hlt : i - s < ((l.drop s).take cs).length := by
    rw [List.length_take, List.length_drop]
    omega
  have heq : ((l.drop s).take cs)[i - s] = l[i] := by
    rw [List.getElem_take, List.getElem_drop]
    congr 1
    omega
  rw [← heq]
  exact List.getElem_mem hlt

theorem foldl_add_vecs (rows : List (List ℚ)) :
    ∀ idx : FaissIndexIP, (rows.foldl FaissIndexIP.add idx).vecs = idx.vecs ++ rows := by
  induction rows with
  | nil => intro idx; simp
  | cons r rs ih =>
    intro idx
    rw [List.foldl_cons, ih]
    simp [FaissIndexIP.add]

theorem build_faiss_index_vecs (rows : List (List ℚ)) :
    (build_faiss_index rows).vecs = rows := by
  unfold build_faiss_index
  rw [foldl_add_vecs]
  rfl

/-! ### Decimal representation of natural keys -/

theorem toDigitsCore_digits (f : Nat) :
    ∀ (n : Nat) (ds : List Char), 0 < n → n < f →
      Nat.toDigitsCore 10 f n ds = ((Nat.digits 10 n).map Nat.digitChar).reverse ++ ds := by
  induction f with
  | zero => intro n ds h1 h2; omega
  | succ f ih =>
    intro n ds h1 h2
    simp only [Nat.toDigitsCore]
    by_cases h : n / 10 = 0
    · rw [if_pos h, Nat.digits_def' (by norm_num) h1, h, Nat.digits_zero]
      simp
    · rw [if_neg h, ih (n / 10) _ (Nat.pos_of_ne_zero h) (by omega),
        Nat.digits_def' (by norm_num : (1:Nat) < 10) h1]
      simp

theorem repr_eq_digits (n : Nat) (h : 0 < n) :
    Nat.repr n = ⟨((Nat.digits 10 n).map Nat.digitChar).reverse⟩ := by
  unfold Nat.repr Nat.toDigits
  rw [toDigitsCore_digits (n + 1) n [] h (by omega)]
  simp [List.asString]

theorem digitChar_fin_inj : ∀ (a b : Fin 10),
    Nat.digitChar a.val = Nat.digitChar b.val → a = b := by decide

theorem map_digitChar_inj : ∀ (l1 l2 : List Nat), (∀ d ∈ l1, d < 10) → (∀ d ∈ l2, d < 10) →
    l1.map Nat.digitChar = l2.map Nat.digitChar → l1 = l2 := by
  intro l1
  induction l1 with
  | nil =>
    intro l2 _ _ h
    cases l2 with
    | nil => rfl
    | cons b t2 => simp at h
  | cons a t ih =>
    intro l2 h1 h2 h
    cases l2 with
    | nil => simp at h
    | cons b t2 =>
      simp only [List.map_cons, List.cons.injEq] at h
      have ha := h1 a (List.mem_cons_self _ _)
      have hb := h2 b (List.mem_cons_self _ _)
      have hab : a = b := by
        have := digitChar_fin_inj ⟨a, ha⟩ ⟨b, hb⟩ h.1
        exact congrArg Fin.val this
      rw [hab, ih t2 (fun d hd => h1 d (List.mem_cons_of_mem _ hd))
        (fun d hd => h2 d (List.mem_cons_of_mem _ hd)) h.2]

theorem natRepr_injective {m n : Nat} (h : Nat.repr m = Nat.repr n) : m = n := by
  have key : ∀ k : Nat, 0 < k → Nat.repr k ≠ "0" := by
    intro k hk hcontra
    rw [repr_eq_digits k hk] at hcontra
    have hd : ((Nat.digits 10 k).map Nat.digitChar).reverse = ['0'] := by
      have := String.ext_iff.mp hcontra
      simpa using this
    have hmap : (Nat.digits 10 k).map Nat.digitChar = ['0'] := by
      have := congrArg List.reverse hd
      simpa using this
    cases hdig : Nat.digits 10 k with
    | nil => rw [hdig] at hmap; simp at hmap
    | cons d t =>
      rw [hdig] at hmap
      simp only [List.map_cons, List.cons.injEq] at hmap
      have hd10 : d < 10 := Nat.digits_lt_base (by norm_num) (by rw [hdig]; exact List.mem_cons_self _ _)
      have hzero : d = 0 := by
        have := digitChar_fin_inj ⟨d, hd10⟩ ⟨0, by norm_num⟩ (by simpa using hmap.1)
        exact congrArg Fin.val this
      have ht : t = [] := by
        cases t with
        | nil => rfl
        | cons x xs => simp at hmap
      have hdig0 : Nat.digits 10 k = [0] := by rw [hdig, hzero, ht]
      have hk0 := congrArg (Nat.ofDigits 10) hdig0
      rw [Nat.ofDigits_digits] at hk0
      simp [Nat.ofDigits] at hk0
      omega
  rcases Nat.eq_zero_or_pos m with hm | hm <;> rcases Nat.eq_zero_or_pos n with hn | hn
  · omega
  · exact absurd h.symm (by subst hm; exact key n hn)
  · exact absurd h (by subst hn; exact key m hm)
  · rw [repr_eq_digits m hm, repr_eq_digits n hn] at h
    have hd := String.ext_iff.mp h
    simp only at hd
    have hrev := List.reverse_injective hd
    have hdig := map_digitChar_inj _ _
      (fun d hdm => Nat.digits_lt_base (by norm_num) hdm)
      (fun d hdn => Nat.digits_lt_base (by norm_num) hdn) hrev
    have := congrArg (Nat.ofDigits 10) hdig
    rw [Nat.ofDigits_digits, Nat.ofDigits_digits] at this
    exact_mod_cast this

theorem toString_nat_injective {m n : Nat} (h : toString m = toString n) : m = n :=
  natRepr_injective h

theorem natRepr_ne_neg_one (n : Nat) : Nat.repr n ≠ "-1" := by
  rcases Nat.eq_zero_or_pos n with h | h
  · subst h; decide
  · rw [repr_eq_digits n h]
    intro hcontra
    have hd : ((Nat.digits 10 n).map Nat.digitChar).reverse = ['-', '1'] := by
      have := String.ext_iff.mp hcontra
      simpa using this
    have hmem : '-' ∈ ((Nat.digits 10 n).map Nat.digitChar).reverse := by
      rw [hd]; exact List.mem_cons_self _ _
    rw [List.mem_reverse] at hmem
    obtain ⟨d, hdm, hdc⟩ := List.mem_map.mp hmem
    have hlt : d < 10 := Nat.digits_lt_base (by norm_num) hdm
    have hall : ∀ (x : Fin 10), Nat.digitChar x.val ≠ '-' := by decide
    exact hall ⟨d, hlt⟩ hdc

/-! ### Association-list lookup -/

theorem lookup_eq_none_of_no_key {β : Type} (key : String) (l : List (String × β))
    (h : ∀ p ∈ l, p.1 ≠ key) : l.lookup key = none := by
  induction l with
  | nil => rfl
  | cons a t ih =>
    cases a with
    | mk k' v' =>
      have hne : (key == k') = false :=
        beq_eq_false_iff_ne.mpr (fun he => (h (k', v') (List.mem_cons_self _ _)) he.symm)
      simp only [List.lookup, hne]
      exact ih (fun p hp => h p (List.mem_cons_of_mem _ hp))

theorem mem_of_lookup_eq_some {β : Type} {key : String} {l : List (String × β)} {v : β}
    (h : l.lookup key = some v) : (key, v) ∈ l := by
  induction l with
  | nil => cases h
  | cons a t ih =>
    cases a with
    | mk k' v' =>
      simp only [List.lookup] at h
      cases hbeq : (key == k') with
      | true =>
        rw [hbeq] at h
        cases h
        have hkey : key = k' := eq_of_beq hbeq
        subst hkey
        exact List.mem_cons_self _ _
      | false =>
        rw [hbeq] at h
        exact List.mem_cons_of_mem _ (ih h)

theorem lookup_map_of_inj {β : Type} (f : Nat → String) (g : Nat → β)
    (hf : ∀ a b, f a = f b → a = b) :
    ∀ (l : List Nat) (p : Nat), p ∈ l →
      (l.map (fun i => (f i, g i))).lookup (f p) = some (g p) := by
  intro l
  induction l with
  | nil => intro p hp; simp at hp
  | cons a t ih =>
    intro p hp
    simp only [List.map_cons, List.lookup]
    by_cases hap : f p = f a
    · have hpa : p = a := hf _ _ hap
      subst hpa
      simp
    · have hbeq : (f p == f a) = false := beq_eq_false_iff_ne.mpr hap
      simp only [hbeq]
      apply ih
      rcases List.mem_cons.mp hp with rfl | h'
      · exact absurd rfl hap
      · exact h'

/-- In the identity id mapping, every valid position's stringified key maps to
itself. -/
theorem lookup_id_mapping (chunks : List String) (p : Nat) (hp : p < chunks.length) :
    (id_mappingOf chunks).lookup (toString p) = some p := by
  unfold id_mappingOf
  exact lookup_map_of_inj toString (fun i => i) (fun a b h => toString_nat_injective h)
    (List.range chunks.length) p (List.mem_range.mpr hp)

/-- The FAISS padding sentinel `-1` never hits a key of the identity mapping. -/
theorem lookup_neg_one (chunks : List String) :
    (id_mappingOf chunks).lookup (toString (-1 : Int)) = none := by
  apply lookup_eq_none_of_no_key
  intro pr hpr
  unfold id_mappingOf at hpr
  obtain ⟨i, _, heq⟩ := List.mem_map.mp hpr
  cases heq
  show toString i ≠ toString (-1 : Int)
  have hneg : toString (-1 : Int) = "-1" := by decide
  rw [hneg]
  exact natRepr_ne_neg_one i

theorem mapM_eq_some_map {α β : Type} (f : α → Option β) (g : α → β) :
    ∀ l : List α, (∀ x ∈ l, f x = some (g x)) → l.mapM f = some (l.map g) := by
  intro l
  induction l with
  | nil => intro _; rfl
  | cons a t ih =>
    intro h
    rw [List.mapM_cons, h a (List.mem_cons_self _ _),
      ih (fun x hx => h x (List.mem_cons_of_mem _ hx))]
    rfl

theorem mapM_isSome_length {α β : Type} (f : α → Option β) :
    ∀ l : List α, (∀ x ∈ l, (f x).isSome) →
      ∃ r, l.mapM f = some r ∧ r.length = l.length := by
  intro l
  induction l with
  | nil => exact fun _ => ⟨[], rfl, rfl⟩
  | cons a t ih =>
    intro h
    obtain ⟨b, hb⟩ := Option.isSome_iff_exists.mp (h a (List.mem_cons_self _ _))
    obtain ⟨r, hr, hlen⟩ := ih (fun x hx => h x (List.mem_cons_of_mem _ hx))
    refine ⟨b :: r, ?_, by simp [hlen]⟩
    rw [List.mapM_cons, hb, hr]
    rfl

/-- Against the build-produced identity mapping, the retriever's
`if str(idx) in id_mapping` filter keeps exactly the real ranked positions and
drops exactly the `-1` padding. -/
theorem filter_search_mapped (chunks : List String) (rows : List (List ℚ))
    (hlen : rows.length = chunks.length) (q : List ℚ) (k : Nat) :
    (faissSearch (build_faiss_index rows) q k).filter
      (fun p => ((id_mappingOf chunks).lookup (toString p)).isSome) =
    ((List.insertionSort (rankLe rows q) (List.range rows.length)).take k).map Int.ofNat := by
  simp only [faissSearch, FaissIndexIP.count, build_faiss_index_vecs]
  rw [List.filter_append, List.filter_map]
  have hA : ((List.insertionSort (rankLe rows q) (List.range rows.length)).take k).filter
      ((fun p : Int => ((id_mappingOf chunks).lookup (toString p)).isSome) ∘ Int.ofNat) =
      (List.insertionSort (rankLe rows q) (List.range rows.length)).take k := by
    rw [List.filter_eq_self]
    intro a ha
    have h1 : a ∈ List.insertionSort (rankLe rows q) (List.range rows.length) :=
      List.take_subset _ _ ha
    have h2 := (List.perm_insertionSort (rankLe rows q) (List.range rows.length)).mem_iff.mp h1
    have han : a < chunks.length := by
      rw [← hlen]
      exact List.mem_range.mp h2
    show ((id_mappingOf chunks).lookup (toString (Int.ofNat a))).isSome = true
    have hts : toString (Int.ofNat a) = toString a := rfl
    rw [hts, lookup_id_mapping chunks a han]
    rfl
  have hB : (List.replicate
        (k - ((List.insertionSort (rankLe rows q) (List.range rows.length)).take k).length)
        (-1 : Int)).filter
      (fun p => ((id_mappingOf chunks).lookup (toString p)).isSome) = [] := by
    rw [List.filter_eq_nil_iff]
    intro a ha
    have ha1 : a = -1 := (List.mem_replicate.mp ha).2
    subst ha1
    rw [lookup_neg_one chunks]
    simp
  rw [hA, hB, List.append_nil]

/-! ## Claim theorems -/

/-- C3 counterexample: on the input text `"A. B. C. D. E."` with
`chunk_size = 2` and `overlap = 1`, `chunk_text` does not return the four
chunks `["A. B.", "B. C.", "C. D.", "D. E."]` claimed. -/
theorem chunk_text_concrete_counterexample :
    chunk_text "A. B. C. D. E." 2 1 ≠ some ["A. B.", "B. C.", "C. D.", "D. E."] := by
  decide

/-- C3 amended: on `"A. B. C. D. E."` with `chunk_size = 2`, `overlap = 1`,
`chunk_text` returns exactly the five chunks
`["A. B.", "B. C.", "C. D.", "D. E.", "E."]` — the loop also visits start
position 4 and emits the final partial window `"E."`. -/
theorem chunk_text_concrete_five :
    chunk_text "A. B. C. D. E." 2 1 =
      some ["A. B.", "B. C.", "C. D.", "D. E.", "E."] := by
  decide

/-- C4: the chunker neither rejects `overlap ≥ chunk_size` nor guarantees
forward progress: on the input `"A. B."` with `chunk_size = overlap = 2`, the
loop of `chunk_text` never terminates — no fuel bound whatsoever produces a
result (its advance step is `0`, and the sentence list is never empty), so the
fuelled embedding returns `none` for every fuel. -/
theorem chunk_text_overlap_divergence :
    (∀ fuel : Nat, chunkLoop 2 2 (splitSentences "A. B.") fuel 0 [] = none) ∧
    chunk_text "A. B." 2 2 = none := by
  refine ⟨fun fuel => ?_, ?_⟩
  · exact chunkLoop_none_of_nonpos 2 2 _ (le_refl 2)
      (splitSentences_length_pos _) fuel 0 [] (le_refl 0)
  · exact chunkLoop_none_of_nonpos 2 2 _ (le_refl 2)
      (splitSentences_length_pos _) _ 0 [] (le_refl 0)

/-- C5 counterexample: artifacts with both mismatch classes of the claim —
the index holds 2 vectors while the mapping has 1 entry, and the mapping's
value `5` lies outside the id range of the 1-row chunk table — are loaded by
`app.py` without any error: no integrity check exists at load time. -/
theorem loadArtifacts_accepts_mismatch :
    ((FaissIndexIP.mk [[1], [2]]).count ≠ ([("0", 5)] : List (String × Nat)).length ∧
      ("0", 5) ∈ ([("0", 5)] : List (String × Nat)) ∧ (["t"] : List String).length ≤ 5) ∧
    loadArtifacts ⟨[[1], [2]]⟩ ["t"] [("0", 5)] =
      .ok ⟨⟨[[1], [2]]⟩, ["t"], [("0", 5)]⟩ :=
  ⟨⟨by decide, by decide, by decide⟩, rfl⟩

/-- C5 amended: the module-level load of `app.py` performs no integrity
validation — every combination of index, chunk table and id mapping is
accepted — and a mismatch surfaces only at query time: with an index of one
vector, a mapping sending position 0 to the out-of-range chunk id 5 and a
one-row chunk table, `retrieve_docs`'s retrieval fails on the request
(`df.loc` raises), instead of the process refusing to serve at startup. -/
theorem loadArtifacts_no_validation :
    (∀ (idx : FaissIndexIP) (df : List String) (m : List (String × Nat)),
      loadArtifacts idx df m = .ok ⟨idx, df, m⟩) ∧
    retrieveList ⟨[[1]]⟩ [("0", 5)] ["t"] [1] 1 = none :=
  ⟨fun _ _ _ => rfl, by decide⟩

/-- C6 counterexample: the normalization step of `build_faiss_index` divides a
zero-norm row by its norm `0` with no detection whatsoever: every component of
the row becomes a non-finite value (`none`, the model of NaN), and this row is
exactly what `index.add` then inserts — it is neither skipped nor replaced by
a fallback. -/
theorem build_normalization_nan :
    (0 : ℚ) ^ 2 = normSq [(0 : ℚ), 0] ∧
    normalizeRows [[(0 : ℚ), 0]] [0] = [[none, none]] := by
  constructor
  · simp [normSq]
  · simp [normalizeRows, normalizeRow, fdiv]

/-- C6 amended: a row whose pre-normalization norm `n` is nonzero is divided
through by `n` and the result has squared L2 norm exactly 1; a row with zero
norm is divided by zero, turning every component into a non-finite value that
is silently propagated — there is no detection, skipping, reported error or
defined fallback in the code. -/
theorem normalize_row_amended (r : List ℚ) (n : ℚ) (h : n ^ 2 = normSq r) :
    (n ≠ 0 → normalizeRow r n = r.map (fun x => some (x / n)) ∧
      normSq (r.map (fun x => x / n)) = 1) ∧
    (n = 0 → normalizeRow r n = r.map (fun _ => none)) := by
  constructor
  · intro hn
    constructor
    · simp [normalizeRow, fdiv, if_neg hn]
    · rw [normSq_map_div, ← h, div_self (pow_ne_zero 2 hn)]
  · intro hn
    subst hn
    simp [normalizeRow, fdiv]

/-- C8: for every chunk sequence, the build step constructs the id mapping as
the identity map over `[0, count)` with stringified integer keys
(`create_dataframe`), and `build_faiss_index` inserts the chunks' vectors into
a fresh index in input order, so every mapping key is a stringified position
below `index.count` and every mapped value is a valid chunk id. The hypothesis
is the embedder contract: one vector per chunk, in order. -/
theorem build_identity_mapping (chunks : List String) (rows : List (List ℚ))
    (hlen : rows.length = chunks.length) :
    id_mappingOf chunks = (List.range chunks.length).map (fun i => (toString i, i)) ∧
    (build_faiss_index rows).vecs = rows ∧
    (∀ key v, (key, v) ∈ id_mappingOf chunks →
      (∃ p, p < (build_faiss_index rows).count ∧ key = toString p) ∧ v < chunks.length) := by
  refine ⟨rfl, build_faiss_index_vecs rows, ?_⟩
  intro key v hm
  unfold id_mappingOf at hm
  obtain ⟨i, hi, heq⟩ := List.mem_map.mp hm
  rw [List.mem_range] at hi
  have hkey : key = toString i := (congrArg Prod.fst heq).symm
  have hv : v = i := (congrArg Prod.snd heq).symm
  have hcount : (build_faiss_index rows).count = chunks.length := by
    show (build_faiss_index rows).vecs.length = chunks.length
    rw [build_faiss_index_vecs, hlen]
  refine ⟨⟨i, by omega, hkey⟩, ?_⟩
  rw [hv]
  exact hi

/-- Witness for C8 with two chunks and two vectors. -/
theorem build_identity_mapping_witness :
    (([[1], [2]] : List (List ℚ)).length = (["a", "b"] : List String).length) ∧
    (id_mappingOf ["a", "b"] =
        (List.range (["a", "b"] : List String).length).map (fun i => (toString i, i)) ∧
      (build_faiss_index [[1], [2]]).vecs = [[1], [2]] ∧
      (∀ key v, (key, v) ∈ id_mappingOf ["a", "b"] →
        (∃ p, p < (build_faiss_index [[1], [2]]).count ∧ key = toString p) ∧
          v < (["a", "b"] : List String).length)) :=
  ⟨by decide, build_identity_mapping ["a", "b"] [[1], [2]] (by decide)⟩

/-- C1: with the artifacts produced by the build pipeline from any chunk list
(the identity id mapping, the chunk table, and the index holding one vector
per chunk in input order), for every normalized query vector `q` and every
`top_k > 0`, `retrieve_docs` succeeds and returns the texts of a position list
`ps` with at most `min(top_k, index.count)` entries, ordered by strictly
descending inner product with `q` and ties broken by ascending insertion
position (`rankLt`), and on an empty index `ps` is empty (so the result is
empty) without any error. -/
theorem retrieve_docs_ordered (chunks : List String) (rows : List (List ℚ)) (q : List ℚ)
    (k : Nat) (hlen : rows.length = chunks.length) (hk : 0 < k) :
    ∃ ps : List Nat,
      retrieveList (build_faiss_index rows) (id_mappingOf chunks) chunks q k =
        some (ps.map (fun p => chunks.getD p "")) ∧
      ps.length ≤ min k (build_faiss_index rows).count ∧
      List.Pairwise (rankLt rows q) ps ∧
      ((build_faiss_index rows).count = 0 → ps = []) ∧
      retrieve_docs (build_faiss_index rows) (id_mappingOf chunks) chunks q k =
        some (String.intercalate "\n\n" (ps.map (fun p => chunks.getD p ""))) := by
  have hk' : 0 < k := hk
  clear hk'
  set n := rows.length with hn
  set sorted := List.insertionSort (rankLe rows q) (List.range n) with hsortdef
  set ps := sorted.take k with hps
  have hmemps : ∀ p ∈ ps, p < n := by
    intro p hp
    exact List.mem_range.mp
      ((List.perm_insertionSort _ _).mem_iff.mp (List.take_subset _ _ hp))
  have hcount : (build_faiss_index rows).count = n := by
    show (build_faiss_index rows).vecs.length = n
    rw [build_faiss_index_vecs]
  have h1 : retrieveList (build_faiss_index rows) (id_mappingOf chunks) chunks q k =
      some (ps.map (fun p => chunks.getD p "")) := by
    unfold retrieveList
    rw [filter_search_mapped chunks rows hlen q k]
    rw [mapM_eq_some_map
      (f := fun p : Int => ((id_mappingOf chunks).lookup (toString p)).bind
        (fun id => chunks[id]?))
      (g := fun p : Int => chunks.getD p.toNat "") (ps.map Int.ofNat) ?_]
    · congr 1
      rw [List.map_map]
      apply List.map_congr_left
      intro p _
      rfl
    · intro x hx
      obtain ⟨p, hp, rfl⟩ := List.mem_map.mp hx
      have hpn : p < chunks.length := by rw [← hlen]; exact hmemps p hp
      show ((id_mappingOf chunks).lookup (toString (Int.ofNat p))).bind
        (fun id => chunks[id]?) = _
      have hts : toString (Int.ofNat p) = toString p := rfl
      rw [hts, lookup_id_mapping chunks p hpn]
      show chunks[p]? = some (chunks.getD (Int.ofNat p).toNat "")
      rw [List.getElem?_eq_getElem hpn]
      congr 1
      show chunks[p] = chunks.getD p ""
      rw [List.getD_eq_getElem?_getD, List.getElem?_eq_getElem hpn]
      rfl
  have hlenps : ps.length = min k n := by
    rw [hps, List.length_take, (List.perm_insertionSort _ _).length_eq, List.length_range]
  refine ⟨ps, h1, ?_, ?_, ?_, ?_⟩
  · rw [hlenps, hcount]
  · have hsorted : List.Pairwise (rankLe rows q) sorted := List.sorted_insertionSort _ _
    have hnodup : sorted.Nodup :=
      ((List.perm_insertionSort _ _).nodup_iff).mpr (List.nodup_range n)
    have hpw := (hsorted.and hnodup).sublist (List.take_sublist k sorted)
    refine List.Pairwise.imp ?_ hpw
    intro a b hab
    rcases hab with ⟨hle, hne⟩
    rcases hle with h | ⟨heq, hle⟩
    · exact Or.inl h
    · exact Or.inr ⟨heq, lt_of_le_of_ne hle hne⟩
  · intro h0
    rw [hcount] at h0
    rw [hps, hsortdef, h0]
    simp [List.insertionSort]
  · unfold retrieve_docs
    rw [h1]
    rfl

/-- Witness for C1 with one chunk, one vector and `top_k = 1`. -/
theorem retrieve_docs_ordered_witness :
    (([[1]] : List (List ℚ)).length = (["t"] : List String).length) ∧ 0 < 1 ∧
    (∃ ps : List Nat,
      retrieveList (build_faiss_index [[1]]) (id_mappingOf ["t"]) ["t"] [1] 1 =
        some (ps.map (fun p => (["t"] : List String).getD p "")) ∧
      ps.length ≤ min 1 (build_faiss_index [[1]]).count ∧
      List.Pairwise (rankLt [[1]] [1]) ps ∧
      ((build_faiss_index [[1]]).count = 0 → ps = []) ∧
      retrieve_docs (build_faiss_index [[1]]) (id_mappingOf ["t"]) ["t"] [1] 1 =
        some (String.intercalate "\n\n" (ps.map (fun p => (["t"] : List String).getD p "")))) :=
  ⟨by decide, by decide, retrieve_docs_ordered ["t"] [[1]] [1] 1 (by decide) (by decide)⟩

/-- C7: for every index, mapping, chunk table in which every mapped id is a
valid row (the request can only fail through a mapped id, never through an
unmapped position), every query vector and every `top_k`: retrieval succeeds,
and the number of returned texts equals the number of search-result positions
whose stringified value is a key of the mapping — every unmapped position
(including FAISS's `-1` padding) is skipped while all mapped ones are still
returned, and absence never raises an error or fails the request. -/
theorem retrieve_skips_unmapped (idx : FaissIndexIP) (mapping : List (String × Nat))
    (df : List String) (q : List ℚ) (k : Nat)
    (hsafe : ∀ s v, (s, v) ∈ mapping → v < df.length) :
    ∃ ts, retrieveList idx mapping df q k = some ts ∧
      ts.length = ((faissSearch idx q k).filter
        (fun p => (mapping.lookup (toString p)).isSome)).length := by
  unfold retrieveList
  apply mapM_isSome_length
  intro x hx
  have hmem := (List.mem_filter.mp hx).2
  obtain ⟨v, hv⟩ := Option.isSome_iff_exists.mp hmem
  rw [hv]
  have hvdf : v < df.length := hsafe _ v (mem_of_lookup_eq_some hv)
  show (df[v]?).isSome = true
  rw [List.getElem?_eq_getElem hvdf]
  rfl

/-- Witness for C7: a two-vector index whose mapping only covers position 0;
position 1 is skipped, the request still succeeds. -/
theorem retrieve_skips_unmapped_witness :
    (∀ s v, (s, v) ∈ ([("0", 0)] : List (String × Nat)) → v < (["t0"] : List String).length) ∧
    (∃ ts, retrieveList ⟨[[1], [2]]⟩ [("0", 0)] ["t0"] [1] 2 = some ts ∧
      ts.length = ((faissSearch ⟨[[1], [2]]⟩ [1] 2).filter
        (fun p => (([("0", 0)] : List (String × Nat)).lookup (toString p)).isSome)).length) :=
  have hsafe : ∀ s v, (s, v) ∈ ([("0", 0)] : List (String × Nat)) →
      v < (["t0"] : List String).length := by
    intro s v hv
    have h := List.mem_singleton.mp hv
    have hv0 : v = 0 := congrArg Prod.snd h
    rw [hv0]
    decide
  ⟨hsafe, retrieve_skips_unmapped ⟨[[1], [2]]⟩ [("0", 0)] ["t0"] [1] 2 hsafe⟩

/-- C2: for every text and every `chunk_size > overlap ≥ 0`, `chunk_text`
computes exactly the spec's description — sentences split immediately after
`.`, `!` or `?` followed by whitespace (the shared `splitSentences`), then a
sliding window advancing `chunk_size - overlap` sentences per step, each chunk
the space-joined (and stripped) concatenation of `chunk_size` consecutive
sentences, the final partial window included and blank-after-trim chunks
dropped (`specWindows`). -/
theorem chunk_text_matches_spec (text : String) (cs ov : Nat) (h : ov < cs) :
    chunk_text text cs ov = some (specWindows cs ov (splitSentences text)) := by
  have hmain := chunkLoop_eq_windows cs ov h (splitSentences text)
    ((splitSentences text).length + 1) 0 [] (by omega) (by omega)
  exact hmain

/-- Witness for C2 on the text `"A. B. C."` with `chunk_size = 2`,
`overlap = 1`, where both sides evaluate to `["A. B.", "B. C.", "C."]`. -/
theorem chunk_text_matches_spec_witness :
    1 < 2 ∧
    chunk_text "A. B. C." 2 1 = some (specWindows 2 1 (splitSentences "A. B. C.")) ∧
    specWindows 2 1 (splitSentences "A. B. C.") = ["A. B.", "B. C.", "C."] :=
  ⟨by decide, chunk_text_matches_spec "A. B. C." 2 1 (by decide), by decide⟩

/-- C9 counterexample: the whitespace-only text `" "` is a non-empty text, and
with `chunk_size = 1 > overlap = 0` the chunker returns the empty chunk
sequence (its single sentence strips to blank and is dropped), refuting
"produces a non-empty sequence of non-blank chunks" for every non-empty
text. -/
theorem chunker_blank_text_empty :
    (" " : String) ≠ "" ∧ 0 < 1 ∧ chunk_text " " 1 0 = some [] := by
  refine ⟨by decide, by decide, by decide⟩

/-- C9 amended: for every text that is non-blank (contains a non-whitespace
character) and every `chunk_size > overlap ≥ 0`, the chunker produces a
non-empty sequence of non-empty chunks, and every non-blank sentence of the
sentence sequence lies in the window of at least one emitted chunk: for
sentence `i` there is a window start `s` (a multiple of the advance step) with
`s ≤ i < s + chunk_size` whose trimmed space-join is one of the emitted
chunks. Whitespace-only sentences (possible only as the first or last piece of
the split) can be silently dropped, which is why the claim is restricted to
non-blank ones. -/
theorem chunker_coverage_amended (text : String) (cs ov : Nat) (hov : ov < cs)
    (htext : pyStrip text ≠ "") :
    ∃ l, chunk_text text cs ov = some l ∧ l ≠ [] ∧ (∀ c ∈ l, c ≠ "") ∧
      ∀ i, (hi : i < (splitSentences text).length) →
        pyStrip (splitSentences text)[i] ≠ "" →
        ∃ s, s % (cs - ov) = 0 ∧ s ≤ i ∧ i < s + cs ∧
          pyStrip (joinSpace (((splitSentences text).drop s).take cs)) ∈ l := by
  have hstep : 0 < cs - ov := by omega
  set sents := splitSentences text with hsents
  refine ⟨specWindows cs ov sents,
    chunkLoop_eq_windows cs ov hov sents (sents.length + 1) 0 [] (by omega) (by omega),
    ?_, ?_, ?_⟩
  case refine_2 =>
    intro c hc
    have := (List.mem_filter.mp hc).2
    simpa using this
  case refine_3 =>
    intro i hi hblank
    refine ⟨(cs - ov) * (i / (cs - ov)), Nat.mul_mod_right _ _, Nat.mul_div_le i (cs - ov), ?_, ?_⟩
    · have hmod := Nat.mod_lt i hstep
      have hdm := Nat.div_add_mod i (cs - ov)
      omega
    · apply List.mem_filter.mpr
      constructor
      · apply List.mem_map.mpr
        refine ⟨(cs - ov) * (i / (cs - ov)), ?_, rfl⟩
        apply List.mem_range'.mpr
        refine ⟨i / (cs - ov), ?_, by omega⟩
        rw [lt_numWindows_iff hstep]
        have : (i / (cs - ov)) * (cs - ov) ≤ i := Nat.div_mul_le_self i (cs - ov)
        omega
      · rw [decide_eq_true_eq]
        intro hempty
        apply hblank
        rw [pyStrip_eq_empty_iff] at hempty ⊢
        intro c hc
        apply hempty
        apply mem_joinSpace_data (s := sents[i]) _ hc
        apply getElem_mem_take_drop sents _ cs i hi (Nat.mul_div_le i (cs - ov))
        have hmod := Nat.mod_lt i hstep
        have hdm := Nat.div_add_mod i (cs - ov)
        omega
  case refine_1 =>
    -- non-emptiness: some character of the text is non-whitespace, so some
    -- sentence is non-blank and its covering window is emitted
    rw [ne_eq, pyStrip_eq_empty_iff] at htext
    push_neg at htext
    obtain ⟨c, hc, hcs⟩ := htext
    rw [Ne, Bool.not_eq_true] at hcs
    obtain ⟨p, hp, hcp⟩ := splitAux_covers text.data [] false c hcs (Or.inl hc)
    have hps : (⟨p⟩ : String) ∈ sents := by
      rw [hsents]
      unfold splitSentences
      exact List.mem_map.mpr ⟨p, hp, rfl⟩
    obtain ⟨i, hi, hieq⟩ := List.mem_iff_getElem.mp hps
    have hblank : pyStrip sents[i] ≠ "" := by
      intro hcontra
      rw [pyStrip_eq_empty_iff] at hcontra
      have := hcontra c (by rw [hieq]; exact hcp)
      rw [hcs] at this
      cases this
    -- reuse the coverage argument shape: the window containing sentence i is emitted
    intro hnil
    have hmem : pyStrip (joinSpace ((sents.drop ((cs - ov) * (i / (cs - ov)))).take cs)) ∈
        specWindows cs ov sents := by
      apply List.mem_filter.mpr
      constructor
      · apply List.mem_map.mpr
        refine ⟨(cs - ov) * (i / (cs - ov)), ?_, rfl⟩
        apply List.mem_range'.mpr
        refine ⟨i / (cs - ov), ?_, by omega⟩
        rw [lt_numWindows_iff hstep]
        have : (i / (cs - ov)) * (cs - ov) ≤ i := Nat.div_mul_le_self i (cs - ov)
        omega
      · rw [decide_eq_true_eq]
        intro hempty
        apply hblank
        rw [pyStrip_eq_empty_iff] at hempty ⊢
        intro c' hc'
        apply hempty
        apply mem_joinSpace_data (s := sents[i]) _ hc'
        apply getElem_mem_take_drop sents _ cs i hi (Nat.mul_div_le i (cs - ov))
        have hmod := Nat.mod_lt i hstep
        have hdm := Nat.div_add_mod i (cs - ov)
        omega
    rw [hnil] at hmem
    exact absurd hmem (List.not_mem_nil _)

/-- Witness for the C9 amended theorem on the text `"A. B"` with
`chunk_size = 2`, `overlap = 1`. -/
theorem chunker_coverage_amended_witness :
    1 < 2 ∧ pyStrip "A. B" ≠ "" ∧
    (∃ l, chunk_text "A. B" 2 1 = some l ∧ l ≠ [] ∧ (∀ c ∈ l, c ≠ "") ∧
      ∀ i, (hi : i < (splitSentences "A. B").length) →
        pyStrip (splitSentences "A. B")[i] ≠ "" →
        ∃ s, s % (2 - 1) = 0 ∧ s ≤ i ∧ i < s + 2 ∧
          pyStrip (joinSpace (((splitSentences "A. B").drop s).take 2)) ∈ l) :=
  ⟨by decide, by decide, chunker_coverage_amended "A. B" 2 1 (by decide) (by decide)⟩

/-- C10: every chunk `chunk_text` emits is non-empty and has no leading or
trailing whitespace — each emitted chunk equals its own trim (chunks are
appended only when `chunk_text.strip()` is truthy, and `strip` is idempotent). -/
theorem chunk_text_trimmed (text : String) (cs ov : Nat) (l : List String)
    (h : chunk_text text cs ov = some l) :
    ∀ c ∈ l, c ≠ "" ∧ pyStrip c = c :=
  chunkLoop_trimmed cs ov (splitSentences text) ((splitSentences text).length + 1) 0 [] l
    (by simp) h

/-- Witness for C10 at the concrete input `"A. B"` with `chunk_size = 1`,
`overlap = 0`. -/
theorem chunk_text_trimmed_witness :
    (("A." : String) ≠ "" ∧ pyStrip "A." = "A.") ∧
    (("B" : String) ≠ "" ∧ pyStrip "B" = "B") :=
  ⟨chunk_text_trimmed "A. B" 1 0 ["A.", "B"] (by decide) "A." (by decide),
   chunk_text_trimmed "A. B" 1 0 ["A.", "B"] (by decide) "B" (by decide)⟩

/-- Witness for the C6 amended theorem at the concrete row `[1]` with norm 1. -/
theorem normalize_row_amended_witness :
    ((1 : ℚ) ^ 2 = normSq [(1 : ℚ)]) ∧
    (((1 : ℚ) ≠ 0 → normalizeRow [(1 : ℚ)] 1 = [(1 : ℚ)].map (fun x => some (x / 1)) ∧
        normSq ([(1 : ℚ)].map (fun x => x / 1)) = 1) ∧
      ((1 : ℚ) = 0 → normalizeRow [(1 : ℚ)] 1 = [(1 : ℚ)].map (fun _ => none))) :=
  ⟨by simp [normSq], normalize_row_amended [1] 1 (by simp [normSq])⟩

end Capillary
